import Mathlib

/-! Shallow embedding of the crdt-tree implementation (`src/tree/clock.rs`,
`tree.rs`, `treenode.rs`, `opmove.rs`, `logopmove.rs`, `state.rs`).

Rust `HashMap`s are modelled as `Finmap` (extensional finite maps, whose
equality matches `HashMap` equality); the inner `HashMap<ID, bool>` of the
children index is modelled as `Finset ID` (the implementation only ever
stores the value `true`, so the map is a set).  Functions that can panic
(`usize` underflow followed by an out-of-bounds `Vec` access) return
`Option`, with `none` standing for the panic; `usize` subtraction that can
wrap in release builds is taken modulo `2 ^ 64`. -/

set_option linter.unusedSectionVars false

namespace CrdtTree

variable {ID TM A : Type} [DecidableEq ID] [LinearOrder A]

/-- Lamport clock + actor (`clock.rs`).  `counter : u64` is modelled as `Nat`:
the verified code only compares and copies counters, so no overflow occurs. -/
structure Clock (A : Type) where
  actor_id : A
  counter : Nat
deriving DecidableEq

/-- `Ord for Clock` (`clock.rs`): compare counters; if equal, compare actors. -/
def Clock.cmp (self other : Clock A) : Ordering :=
  if self.counter = other.counter then
    if self.actor_id < other.actor_id then Ordering.lt
    else if other.actor_id < self.actor_id then Ordering.gt
    else Ordering.eq
  else if other.counter < self.counter then Ordering.gt
  else Ordering.lt

/-- Rust `PartialEq for Clock` is defined as `self.cmp(other) == Ordering::Equal`. -/
def Clock.eqb (a b : Clock A) : Bool :=
  decide (a.cmp b = Ordering.eq)

/-- Rust `<` on clocks, derived from `PartialOrd`: `cmp == Ordering::Less`. -/
def Clock.ltb (a b : Clock A) : Bool :=
  decide (a.cmp b = Ordering.lt)

/-- Propositional version of `<` on clocks. -/
def Clock.Lt (a b : Clock A) : Prop :=
  a.cmp b = Ordering.lt

/-- `treenode.rs`: the (parent, metadata) pair stored per child id. -/
structure TreeNode (ID TM : Type) where
  parent_id : ID
  metadata : TM

def TreeNode.new (parent_id : ID) (metadata : TM) : TreeNode ID TM :=
  ⟨parent_id, metadata⟩

/-- `opmove.rs`: at time `timestamp`, `child_id` is moved under `parent_id`. -/
structure OpMove (ID TM A : Type) where
  timestamp : Clock A
  parent_id : ID
  metadata : TM
  child_id : ID

/-- `logopmove.rs`: an applied `OpMove` plus the child's previous tree node. -/
structure LogOpMove (ID TM A : Type) where
  timestamp : Clock A
  parent_id : ID
  metadata : TM
  child_id : ID
  oldp : Option (TreeNode ID TM)

/-- `LogOpMove::new`: fields are taken directly from the move record. -/
def LogOpMove.new (op : OpMove ID TM A) (oldp : Option (TreeNode ID TM)) :
    LogOpMove ID TM A :=
  ⟨op.timestamp, op.parent_id, op.metadata, op.child_id, oldp⟩

/-- `OpMove::from_log_op_move`. -/
def OpMove.from_log_op_move (l : LogOpMove ID TM A) : OpMove ID TM A :=
  ⟨l.timestamp, l.parent_id, l.metadata, l.child_id⟩

/-- `tree.rs`: triples indexed by child id, plus the parent → children index. -/
structure Tree (ID TM : Type) where
  triples : Finmap (fun _ : ID => TreeNode ID TM)
  children : Finmap (fun _ : ID => Finset ID)

/-- `Tree::new`. -/
def Tree.new : Tree ID TM :=
  ⟨∅, ∅⟩

/-- `Tree::find`. -/
def Tree.find (t : Tree ID TM) (child_id : ID) : Option (TreeNode ID TM) :=
  t.triples.lookup child_id

/-- `Tree::rm_child`: remove the triple keyed by `child_id` and prune it from
its parent's children set, dropping the parent entry if it becomes empty. -/
def Tree.rm_child (t : Tree ID TM) (child_id : ID) : Tree ID TM :=
  match t.triples.lookup child_id with
  | some tn =>
    let children' :=
      match t.children.lookup tn.parent_id with
      | some set =>
        if set.erase child_id = ∅ then t.children.erase tn.parent_id
        else t.children.insert tn.parent_id (set.erase child_id)
      | none => t.children
    ⟨t.triples.erase child_id, children'⟩
  | none => t

/-- `Tree::add_node`: insert/overwrite the triple and record the child in its
new parent's children set. -/
def Tree.add_node (t : Tree ID TM) (child_id : ID) (tt : TreeNode ID TM) :
    Tree ID TM :=
  let children' :=
    match t.children.lookup tt.parent_id with
    | some n => t.children.insert tt.parent_id (insert child_id n)
    | none => t.children.insert tt.parent_id {child_id}
  ⟨t.triples.insert child_id tt, children'⟩

/-- The parent-pointer walk of `Tree::is_ancestor`, with explicit fuel.
The Rust loop has no bound; on the acyclic trees that actually arise the walk
visits pairwise-distinct keys of `triples`, so `size + 1` iterations reproduce
it exactly (proved below). -/
def Tree.ancWalk (t : Tree ID TM) (ancestor_id : ID) : Nat → ID → Bool
  | 0, _ => false
  | fuel + 1, target_id =>
    match t.find target_id with
    | some n =>
      if n.parent_id = ancestor_id then true else t.ancWalk ancestor_id fuel n.parent_id
    | none => false

/-- Number of entries of the triples map (`HashMap::len`). -/
def Tree.size (t : Tree ID TM) : Nat :=
  t.triples.keys.card

/-- `Tree::is_ancestor`: walk parent pointers from `child_id` looking for
`ancestor_id`. -/
def Tree.is_ancestor (t : Tree ID TM) (child_id ancestor_id : ID) : Bool :=
  t.ancWalk ancestor_id (t.size + 1) child_id

/-- The tree update performed by `State::do_op` (`state.rs`): if the op is a
self-parent move or would move a node under its own descendant, the tree is
returned unmodified; otherwise `c` is removed and re-added under `parent_id`. -/
def Tree.doMove (t : Tree ID TM) (op : OpMove ID TM A) : Tree ID TM :=
  if op.child_id = op.parent_id ∨ t.is_ancestor op.parent_id op.child_id = true then t
  else (t.rm_child op.child_id).add_node op.child_id (TreeNode.new op.parent_id op.metadata)

/-- The tree update performed by `State::undo_op`. -/
def Tree.undoMove (t : Tree ID TM) (log : LogOpMove ID TM A) : Tree ID TM :=
  let t1 := t.rm_child log.child_id
  match log.oldp with
  | some oldp => t1.add_node log.child_id (TreeNode.new oldp.parent_id oldp.metadata)
  | none => t1

/-- `state.rs`: a log of `LogOpMove` in descending timestamp order, plus a tree. -/
structure State (ID TM A : Type) where
  log_op_list : List (LogOpMove ID TM A)
  tree : Tree ID TM

/-- `State::new`. -/
def State.new : State ID TM A :=
  ⟨[], Tree.new⟩

/-- `State::add_log_entry`: add at the beginning of the list. -/
def State.add_log_entry (s : State ID TM A) (entry : LogOpMove ID TM A) :
    State ID TM A :=
  { s with log_op_list := entry :: s.log_op_list }

/-- `State::do_op`: record `oldp` from the tree before the move, produce the
log entry, and update the tree (the update is a no-op for invariant-violating
ops, see `Tree.doMove`). -/
def State.do_op (s : State ID TM A) (op : OpMove ID TM A) :
    LogOpMove ID TM A × State ID TM A :=
  let oldp := s.tree.find op.child_id
  let log := LogOpMove.new op oldp
  (log, { s with tree := s.tree.doMove op })

/-- `State::undo_op`. -/
def State.undo_op (s : State ID TM A) (log : LogOpMove ID TM A) : State ID TM A :=
  { s with tree := s.tree.undoMove log }

/-- `State::redo_op`: re-run `do_op` on the op reconstructed from the log
entry and push the recomputed log entry. -/
def State.redo_op (s : State ID TM A) (logop : LogOpMove ID TM A) : State ID TM A :=
  let op := OpMove.from_log_op_move logop
  let p := s.do_op op
  p.2.add_log_entry p.1

/-- The recursion of `State::apply_op`, on the log list and tree of the state.
Empty log: do the op and make its entry the whole log.  Duplicate head
timestamp: no-op.  Smaller timestamp: pop the head entry (`remove(0)`), undo
it, apply recursively, redo it.  Larger: do the op and push its entry. -/
def State.apply_op_list (op1 : OpMove ID TM A) :
    List (LogOpMove ID TM A) → Tree ID TM → State ID TM A
  | [], tree =>
    let p := (State.mk [] tree).do_op op1
    ⟨[p.1], p.2.tree⟩
  | logop :: rest, tree =>
    if Clock.eqb op1.timestamp logop.timestamp then ⟨logop :: rest, tree⟩
    else if Clock.ltb op1.timestamp logop.timestamp then
      let s1 := (State.mk rest tree).undo_op logop
      let s2 := State.apply_op_list op1 rest s1.tree
      s2.redo_op logop
    else
      let p := (State.mk (logop :: rest) tree).do_op op1
      p.2.add_log_entry p.1

/-- `State::apply_op`. -/
def State.apply_op (s : State ID TM A) (op1 : OpMove ID TM A) : State ID TM A :=
  State.apply_op_list op1 s.log_op_list s.tree

/-- `State::apply_ops_into`: apply each op in order. -/
def State.apply_ops_into (s : State ID TM A) (ops : List (OpMove ID TM A)) :
    State ID TM A :=
  ops.foldl State.apply_op s

/-- `State::apply_ops`. -/
def State.apply_ops (s : State ID TM A) (ops : List (OpMove ID TM A)) :
    State ID TM A :=
  s.apply_ops_into ops

/-- `n - 1` in wrapping `usize` arithmetic (release-build semantics): for
`n = 0` the subtraction wraps around to `2 ^ 64 - 1`. -/
def usizeSub1 (n : Nat) : Nat :=
  (n + (2 ^ 64 - 1)) % 2 ^ 64

/-- The `for (i, v) in log.iter().rev().enumerate()` scan of
`State::truncate_log_before`: while the entry's timestamp is below the
threshold, set `last_idx = len - 1 - i`; stop at the first entry at or above
the threshold. -/
def truncScan (ts : Clock A) (len : Nat) :
    List (LogOpMove ID TM A) → Nat → Nat → Nat
  | [], _, last_idx => last_idx
  | v :: rest, i, last_idx =>
    if Clock.ltb v.timestamp ts then truncScan ts len rest (i + 1) (len - 1 - i)
    else last_idx

/-- The removal loop of `State::truncate_log_before`: repeatedly compute
`idx = len - 1` and `remove(idx)` until `idx < last_idx`.  On an empty list
the `usize` subtraction wraps and `remove` goes out of bounds: a panic,
modelled as `none`. -/
def truncRemove (last_idx : Nat) (l : List (LogOpMove ID TM A)) :
    Option (List (LogOpMove ID TM A)) :=
  match l with
  | [] => none
  | x :: xs =>
    if (x :: xs).length - 1 < last_idx then some (x :: xs)
    else truncRemove last_idx (x :: xs).dropLast
termination_by l.length
decreasing_by simp [List.length_dropLast]

/-- `State::truncate_log_before`.  `last_idx` starts at `len - 1` computed in
`usize` arithmetic, hence the `% 2 ^ 64` wraparound for `len = 0`.  Returns
the flag `last_idx + 1 < len` and the updated state, or `none` for a panic. -/
def State.truncate_log_before (s : State ID TM A) (timestamp : Clock A) :
    Option (Bool × State ID TM A) :=
  let len := s.log_op_list.length
  let last_idx := truncScan timestamp len s.log_op_list.reverse 0 (usizeSub1 len)
  match truncRemove last_idx s.log_op_list with
  | none => none
  | some l => some (decide (last_idx + 1 < len), { s with log_op_list := l })

/-- The `while i < len - 1` loop of `State::check_log_is_descending`, with the
bound `len - 1` already computed (in wrapping `usize` arithmetic).  Indexing
out of bounds is a panic, modelled as `none`, as is the explicit panic on a
non-descending adjacent pair. -/
def checkDescLoop (log : List (LogOpMove ID TM A)) (bound : Nat) (i : Nat) :
    Option Unit :=
  if _h : i < bound then
    match log[i]?, log[i + 1]? with
    | some first, some second =>
      if Clock.ltb second.timestamp first.timestamp then checkDescLoop log bound (i + 1)
      else none
    | _, _ => none
  else some ()
termination_by bound - i
decreasing_by omega

/-- `State::check_log_is_descending`: the loop bound is `len - 1` on a `usize`
length, which wraps for an empty log. -/
def State.check_log_is_descending (s : State ID TM A) : Option Unit :=
  checkDescLoop s.log_op_list (usizeSub1 s.log_op_list.length) 0

/-! Specification-side definitions used to state and prove the properties:
parent-pointer chains and the ancestor relation, the children-index
consistency predicates, the replay of a log from the empty tree, and raw
`add_node`/`rm_child` op sequences. -/

/-- `t.ChainUp c l a`: starting at `c`, following parent pointers through the
intermediate nodes `l` in order reaches `a`. -/
def Tree.ChainUp (t : Tree ID TM) : ID → List ID → ID → Prop
  | c, [], a => ∃ n, t.find c = some n ∧ n.parent_id = a
  | c, x :: xs, a => ∃ n, t.find c = some n ∧ n.parent_id = x ∧ Tree.ChainUp t x xs a

/-- `a` is reachable from `c` by one or more parent steps. -/
def Tree.Anc (t : Tree ID TM) (c a : ID) : Prop :=
  ∃ l, t.ChainUp c l a

/-- No node is its own ancestor. -/
def Tree.Acyclic (t : Tree ID TM) : Prop :=
  ∀ n, ¬ t.Anc n n

/-- Consistency of the children index with the triples map: `children[p]`
contains `c` iff `triples[c].parent_id = p`. -/
def Tree.ConsIndex (t : Tree ID TM) : Prop :=
  ∀ p c, (∃ S, t.children.lookup p = some S ∧ c ∈ S) ↔
    (∃ n, t.triples.lookup c = some n ∧ n.parent_id = p)

/-- The children index never stores an empty set (`rm_child` prunes them). -/
def Tree.Clean (t : Tree ID TM) : Prop :=
  ∀ p S, t.children.lookup p = some S → S ≠ ∅

/-- The combined children-index invariant. -/
def Tree.CC (t : Tree ID TM) : Prop :=
  t.ConsIndex ∧ t.Clean

/-- The forward inclusion only: every triple is recorded in the index. -/
def Tree.FwdIndex (t : Tree ID TM) : Prop :=
  ∀ c n, t.triples.lookup c = some n →
    ∃ S, t.children.lookup n.parent_id = some S ∧ c ∈ S

/-- Replaying a log (oldest entry first, i.e. from the tail) from the empty
tree by `do`-ing each logged op. -/
def replayTree : List (LogOpMove ID TM A) → Tree ID TM
  | [] => Tree.new
  | l :: ls => (replayTree ls).doMove (OpMove.from_log_op_move l)

/-- Every log entry's `oldp` is the parent record its child had in the tree
obtained by replaying the older entries. -/
def logOk : List (LogOpMove ID TM A) → Prop
  | [] => True
  | l :: ls => logOk ls ∧ l.oldp = (replayTree ls).find l.child_id

/-- Strictly descending timestamps (every entry above every later one). -/
def descLog (l : List (LogOpMove ID TM A)) : Prop :=
  l.Pairwise (fun x y => Clock.Lt y.timestamp x.timestamp)

/-- The timestamps of a log. -/
def logTs (l : List (LogOpMove ID TM A)) : List (Clock A) :=
  l.map (fun e => e.timestamp)

/-- The reachable-state invariant: descending log, `oldp`-consistent log, and
the tree is exactly the replay of the log. -/
def Replayed (s : State ID TM A) : Prop :=
  descLog s.log_op_list ∧ logOk s.log_op_list ∧ s.tree = replayTree s.log_op_list

/-- A raw tree-mutation call, for stating properties of arbitrary
`add_node`/`rm_child` sequences. -/
inductive TreeOp (ID TM : Type) where
  | add_node (child_id : ID) (tt : TreeNode ID TM)
  | rm_child (child_id : ID)

/-- Perform one raw tree-mutation call. -/
def Tree.applyTreeOp (t : Tree ID TM) : TreeOp ID TM → Tree ID TM
  | .add_node c tt => t.add_node c tt
  | .rm_child c => t.rm_child c

/-- Perform a sequence of raw tree-mutation calls. -/
def Tree.applyTreeOps (t : Tree ID TM) (ops : List (TreeOp ID TM)) : Tree ID TM :=
  ops.foldl Tree.applyTreeOp t

/-- A mutation sequence in which every `add_node` either creates a fresh child
or keeps the child's parent unchanged (no cross-parent overwrite). -/
def SafeTreeOps (t : Tree ID TM) : List (TreeOp ID TM) → Prop
  | [] => True
  | op :: ops =>
    (match op with
     | .add_node c tt =>
        t.triples.lookup c = none ∨
          ∃ n, t.triples.lookup c = some n ∧ n.parent_id = tt.parent_id
     | .rm_child _ => True) ∧ SafeTreeOps (t.applyTreeOp op) ops

/-! Clock order lemmas. -/

theorem Clock.cmp_refl (a : Clock A) : a.cmp a = Ordering.eq := by
  simp [Clock.cmp]

theorem Clock.cmp_eq_iff (a b : Clock A) : a.cmp b = Ordering.eq ↔ a = b := by
  constructor
  · intro h
    cases a with
    | mk aa ac =>
      cases b with
      | mk ba bc =>
        simp only [Clock.cmp] at h
        split_ifs at h with h1 h2 h3
        all_goals simp_all
        exact le_antisymm h3 h2
  · intro h
    subst h
    exact Clock.cmp_refl a

theorem Clock.cmp_lt_iff (a b : Clock A) :
    a.cmp b = Ordering.lt ↔
      (a.counter < b.counter ∨ (a.counter = b.counter ∧ a.actor_id < b.actor_id)) := by
  cases a with
  | mk aa ac =>
    cases b with
    | mk ba bc =>
      simp only [Clock.cmp]
      split_ifs with h1 h2 h3 h4
      · simp only [true_iff]
        exact Or.inr ⟨h1, h2⟩
      · simp only [false_iff]
        rintro (h | ⟨-, h⟩)
        · omega
        · exact absurd h (lt_asymm h3)
      · simp only [false_iff]
        rintro (h | ⟨-, h⟩)
        · omega
        · exact h2 h
      · simp only [false_iff]
        rintro (h | ⟨h, -⟩) <;> omega
      · simp only [true_iff]
        exact Or.inl (by omega)

theorem Clock.cmp_gt_iff_counters (a b : Clock A) :
    a.cmp b = Ordering.gt ↔
      (b.counter < a.counter ∨ (a.counter = b.counter ∧ b.actor_id < a.actor_id)) := by
  cases a with
  | mk aa ac =>
    cases b with
    | mk ba bc =>
      simp only [Clock.cmp]
      split_ifs with h1 h2 h3 h4
      · simp only [reduceCtorEq, false_iff]
        rintro (h | ⟨-, h⟩)
        · omega
        · exact absurd h (lt_asymm h2)
      · simp only [true_iff]
        exact Or.inr ⟨h1, h3⟩
      · simp only [reduceCtorEq, false_iff]
        rintro (h | ⟨-, h⟩)
        · omega
        · exact h3 h
      · simp only [true_iff]
        exact Or.inl h4
      · simp only [reduceCtorEq, false_iff]
        rintro (h | ⟨h, -⟩) <;> omega

theorem Clock.cmp_gt_iff (a b : Clock A) :
    a.cmp b = Ordering.gt ↔ b.cmp a = Ordering.lt := by
  rw [Clock.cmp_gt_iff_counters, Clock.cmp_lt_iff]
  constructor
  · rintro (h | ⟨h1, h2⟩)
    · exact Or.inl h
    · exact Or.inr ⟨h1.symm, h2⟩
  · rintro (h | ⟨h1, h2⟩)
    · exact Or.inl h
    · exact Or.inr ⟨h1.symm, h2⟩

theorem Clock.Lt_irrefl (a : Clock A) : ¬ Clock.Lt a a := by
  simp [Clock.Lt, Clock.cmp_refl]

theorem Clock.Lt_trans {a b c : Clock A} (h1 : Clock.Lt a b) (h2 : Clock.Lt b c) :
    Clock.Lt a c := by
  simp only [Clock.Lt, Clock.cmp_lt_iff] at h1 h2 ⊢
  rcases h1 with h1 | ⟨e1, l1⟩
  · rcases h2 with h2 | ⟨e2, l2⟩
    · exact Or.inl (lt_trans h1 h2)
    · exact Or.inl (by omega)
  · rcases h2 with h2 | ⟨e2, l2⟩
    · exact Or.inl (by omega)
    · exact Or.inr ⟨by omega, lt_trans l1 l2⟩

theorem Clock.Lt_asymm {a b : Clock A} (h : Clock.Lt a b) : ¬ Clock.Lt b a :=
  fun h' => Clock.Lt_irrefl a (Clock.Lt_trans h h')

theorem Clock.Lt_ne {a b : Clock A} (h : Clock.Lt a b) : a ≠ b := by
  intro h'
  subst h'
  exact Clock.Lt_irrefl a h

theorem Clock.Lt_total {a b : Clock A} (h : a ≠ b) : Clock.Lt a b ∨ Clock.Lt b a := by
  simp only [Clock.Lt, Clock.cmp_lt_iff]
  rcases lt_trichotomy a.counter b.counter with h' | h' | h'
  · exact Or.inl (Or.inl h')
  · rcases lt_trichotomy a.actor_id b.actor_id with h'' | h'' | h''
    · exact Or.inl (Or.inr ⟨h', h''⟩)
    · exact absurd (by cases a; cases b; simp_all) h
    · exact Or.inr (Or.inr ⟨h'.symm, h''⟩)
  · exact Or.inr (Or.inl h')

theorem Clock.ltb_iff (a b : Clock A) : Clock.ltb a b = true ↔ Clock.Lt a b := by
  simp [Clock.ltb, Clock.Lt]

theorem Clock.ltb_eq_false_iff (a b : Clock A) : Clock.ltb a b = false ↔ ¬ Clock.Lt a b := by
  simp [Clock.ltb, Clock.Lt]

theorem Clock.eqb_iff (a b : Clock A) : Clock.eqb a b = true ↔ a = b := by
  simp [Clock.eqb, Clock.cmp_eq_iff]

theorem Clock.eqb_eq_false_iff (a b : Clock A) : Clock.eqb a b = false ↔ a ≠ b := by
  simp [Clock.eqb, Clock.cmp_eq_iff]

/-- Not below and not equal means strictly above. -/
theorem Clock.gt_of_not_lt_not_eq {a b : Clock A} (h1 : ¬ Clock.Lt a b) (h2 : a ≠ b) :
    Clock.Lt b a := by
  rcases Clock.Lt_total h2 with h | h
  · exact absurd h h1
  · exact h

/-- C9: `Clock::cmp` is a strict total order: `Equal` exactly when actor and
counter both agree, `Less`/`Greater` are swapped by swapping the arguments
(antisymmetry), the order is transitive and total, and it compares by counter
first with ties broken by actor. -/
theorem clock_cmp_strict_total_order (a b c : Clock A) :
    (Clock.cmp a b = Ordering.eq ↔ a.actor_id = b.actor_id ∧ a.counter = b.counter) ∧
    (Clock.cmp a b = Ordering.lt ↔ Clock.cmp b a = Ordering.gt) ∧
    (Clock.cmp a b = Ordering.lt → Clock.cmp b c = Ordering.lt →
      Clock.cmp a c = Ordering.lt) ∧
    (Clock.cmp a b = Ordering.lt ∨ Clock.cmp a b = Ordering.eq ∨
      Clock.cmp a b = Ordering.gt) ∧
    (Clock.cmp a b = Ordering.lt ↔
      (a.counter < b.counter ∨ (a.counter = b.counter ∧ a.actor_id < b.actor_id))) := by
  refine ⟨?_, ?_, ?_, ?_, Clock.cmp_lt_iff a b⟩
  · rw [Clock.cmp_eq_iff]
    constructor
    · intro h
      subst h
      exact ⟨rfl, rfl⟩
    · intro h
      cases a
      cases b
      simp only at h
      simp [h.1, h.2]
  · exact (Clock.cmp_gt_iff b a).symm
  · exact fun h1 h2 => Clock.Lt_trans h1 h2
  · cases h : Clock.cmp a b <;> simp

theorem clock_cmp_strict_total_order_witness :
    Clock.cmp (⟨0, 1⟩ : Clock Nat) ⟨0, 3⟩ = Ordering.lt :=
  (clock_cmp_strict_total_order ⟨0, 1⟩ ⟨0, 2⟩ ⟨0, 3⟩).2.2.1 (by decide) (by decide)

/-! Branch lemmas for `State.apply_op`. -/

/-- C8: applying an op whose timestamp equals the newest logged op's timestamp
is treated as a no-op: `apply_op` returns with tree and log unchanged. -/
theorem apply_op_duplicate_timestamp_noop (s : State ID TM A)
    (logop : LogOpMove ID TM A) (rest : List (LogOpMove ID TM A))
    (op : OpMove ID TM A) (hlog : s.log_op_list = logop :: rest)
    (hts : op.timestamp = logop.timestamp) :
    s.apply_op op = s := by
  cases s with
  | mk log tree =>
    simp only at hlog
    subst hlog
    show State.apply_op_list op (logop :: rest) tree = State.mk (logop :: rest) tree
    rw [State.apply_op_list]
    rw [if_pos ((Clock.eqb_iff op.timestamp logop.timestamp).mpr hts)]

theorem apply_op_duplicate_timestamp_noop_witness :
    (⟨[⟨⟨0, 1⟩, 0, (), 1, none⟩], Tree.new⟩ : State Nat Unit Nat).apply_op
        ⟨⟨0, 1⟩, 2, (), 3⟩ =
      ⟨[⟨⟨0, 1⟩, 0, (), 1, none⟩], Tree.new⟩ :=
  apply_op_duplicate_timestamp_noop _ _ _ _ rfl rfl

/-! `usize` wraparound arithmetic. -/

theorem usizeSub1_zero : usizeSub1 0 = 2 ^ 64 - 1 := by
  norm_num [usizeSub1]

theorem usizeSub1_of_pos {n : Nat} (h1 : 0 < n) (h2 : n < 2 ^ 64) :
    usizeSub1 n = n - 1 := by
  have hp : (2 : Nat) ^ 64 = 18446744073709551616 := by norm_num
  simp only [usizeSub1, hp]
  rw [hp] at h2
  omega

/-! Truncation lemmas. -/

theorem truncRemove_nil (last_idx : Nat) :
    truncRemove last_idx ([] : List (LogOpMove ID TM A)) = none := by
  simp [truncRemove]

/-- C6 (code bug): calling `truncate_log_before` on a state with an empty log
is not the no-op the specification promises: the initial `len - 1` underflows
and the removal loop calls `Vec::remove` out of bounds, i.e. the call panics. -/
theorem truncate_log_before_empty_log_panics (s : State ID TM A)
    (hlog : s.log_op_list = []) (ts : Clock A) :
    s.truncate_log_before ts = none := by
  simp [State.truncate_log_before, hlog, truncRemove_nil]

theorem truncate_log_before_empty_log_panics_witness :
    (State.new : State Nat Unit Nat).log_op_list = [] ∧
      (State.new : State Nat Unit Nat).truncate_log_before ⟨0, 0⟩ = none :=
  ⟨rfl, truncate_log_before_empty_log_panics State.new rfl ⟨0, 0⟩⟩

/-- C5 (code bug): on the two-entry descending log `[t=2, t=1]` with threshold
`t=1`, no entry is strictly below the threshold, yet `truncate_log_before`
still removes the oldest entry (whose timestamp equals the threshold) and
returns `false`.  The second conjunct records that the removed entry was not
below the threshold. -/
theorem truncate_log_before_removes_entry_at_threshold :
    (⟨[⟨⟨0, 2⟩, 0, (), 1, none⟩, ⟨⟨0, 1⟩, 0, (), 2, none⟩], Tree.new⟩ :
        State Nat Unit Nat).truncate_log_before ⟨0, 1⟩ =
      some (false, ⟨[⟨⟨0, 2⟩, 0, (), 1, none⟩], Tree.new⟩) ∧
    ¬ Clock.Lt (⟨0, 1⟩ : Clock Nat) ⟨0, 1⟩ := by
  constructor
  · have h1 : usizeSub1 2 = 1 := by norm_num [usizeSub1]
    simp [State.truncate_log_before, truncScan, truncRemove, h1, Clock.ltb, Clock.cmp]
  · exact Clock.Lt_irrefl _

/-! Lemmas about the `check_log_is_descending` loop. -/

theorem checkDescLoop_of_ge (log : List (LogOpMove ID TM A)) {b i : Nat} (h : b ≤ i) :
    checkDescLoop log b i = some () := by
  unfold checkDescLoop
  simp [Nat.not_lt.mpr h]

theorem checkDescLoop_some_iff (log : List (LogOpMove ID TM A)) (b : Nat)
    (hb : b < log.length) :
    ∀ k i, b - i ≤ k →
      (checkDescLoop log b i = some () ↔
        ∀ j, i ≤ j → j < b →
          ∃ x y, log[j]? = some x ∧ log[j + 1]? = some y ∧
            Clock.Lt y.timestamp x.timestamp) := by
  intro k
  induction k with
  | zero =>
    intro i hik
    rw [checkDescLoop_of_ge log (by omega)]
    constructor
    · intro _ j hij hjb
      exact absurd hjb (by omega)
    · intro _
      rfl
  | succ k ih =>
    intro i hik
    by_cases hib : i < b
    · have hi1 : i < log.length := by omega
      have hi2 : i + 1 < log.length := by omega
      unfold checkDescLoop
      rw [dif_pos hib]
      simp only [List.getElem?_eq_getElem hi1, List.getElem?_eq_getElem hi2]
      by_cases hlt : Clock.Lt (log[i + 1]).timestamp (log[i]).timestamp
      · rw [if_pos ((Clock.ltb_iff _ _).mpr hlt)]
        rw [ih (i + 1) (by omega)]
        constructor
        · intro h j hij hjb
          rcases Nat.eq_or_lt_of_le hij with heq | hlt2
          · subst heq
            exact ⟨log[i], log[i + 1], List.getElem?_eq_getElem hi1,
              List.getElem?_eq_getElem hi2, hlt⟩
          · exact h j hlt2 hjb
        · intro h j hij hjb
          exact h j (by omega) hjb
      · rw [if_neg (fun hc => hlt ((Clock.ltb_iff _ _).mp hc))]
        constructor
        · intro h
          exact absurd h (by simp)
        · intro h
          obtain ⟨x, y, hx, hy, hlt2⟩ := h i le_rfl hib
          rw [List.getElem?_eq_getElem hi1] at hx
          rw [List.getElem?_eq_getElem hi2] at hy
          cases Option.some.inj hx
          cases Option.some.inj hy
          exact absurd hlt2 hlt
    · rw [checkDescLoop_of_ge log (Nat.not_lt.mp hib)]
      constructor
      · intro _ j hij hjb
        exact absurd hjb (by omega)
      · intro _
        rfl

/-- Adjacent strict descent expressed through indexed pairs. -/
theorem chain_iff_pairs (log : List (LogOpMove ID TM A)) :
    log.Chain' (fun a b => Clock.Lt b.timestamp a.timestamp) ↔
      ∀ j, 0 ≤ j → j < log.length - 1 →
        ∃ x y, log[j]? = some x ∧ log[j + 1]? = some y ∧
          Clock.Lt y.timestamp x.timestamp := by
  rw [List.chain'_iff_get]
  constructor
  · intro h j _ hj
    have h1 : j < log.length := by omega
    have h2 : j + 1 < log.length := by omega
    refine ⟨log.get ⟨j, h1⟩, log.get ⟨j + 1, h2⟩, ?_, ?_, h j hj⟩
    · rw [List.getElem?_eq_getElem h1]
      simp [List.get_eq_getElem]
    · rw [List.getElem?_eq_getElem h2]
      simp [List.get_eq_getElem]
  · intro h j hj
    obtain ⟨x, y, hx, hy, hlt⟩ := h j (Nat.zero_le _) hj
    have h1 : j < log.length := by omega
    have h2 : j + 1 < log.length := by omega
    rw [List.getElem?_eq_getElem h1] at hx
    rw [List.getElem?_eq_getElem h2] at hy
    cases Option.some.inj hx
    cases Option.some.inj hy
    simpa [List.get_eq_getElem] using hlt

/-- C10: `check_log_is_descending` on an empty log does not return normally
(the `usize` loop bound `len - 1` wraps around and the first index access is
out of bounds, a panic); on a non-empty log it returns normally exactly when
every adjacent pair of entries strictly descends by timestamp. -/
theorem check_log_is_descending_spec :
    (∀ s : State ID TM A, s.log_op_list = [] → s.check_log_is_descending = none) ∧
    (∀ s : State ID TM A, s.log_op_list ≠ [] → s.log_op_list.length < 2 ^ 64 →
      (s.check_log_is_descending = some () ↔
        s.log_op_list.Chain' (fun a b => Clock.Lt b.timestamp a.timestamp))) := by
  constructor
  · intro s hlog
    unfold State.check_log_is_descending
    rw [hlog]
    have hb : (0 : Nat) < usizeSub1 ([] : List (LogOpMove ID TM A)).length := by
      rw [List.length_nil, usizeSub1_zero]
      norm_num
    unfold checkDescLoop
    rw [dif_pos hb]
    simp
  · intro s hne hlen
    have hpos : 0 < s.log_op_list.length := List.length_pos.mpr hne
    unfold State.check_log_is_descending
    rw [usizeSub1_of_pos hpos hlen]
    have hb : s.log_op_list.length - 1 < s.log_op_list.length := by omega
    have hloop := checkDescLoop_some_iff s.log_op_list (s.log_op_list.length - 1) hb
      (s.log_op_list.length - 1) 0 (by omega)
    rw [hloop, chain_iff_pairs]

/-! Finmap helpers. -/

theorem lookup_insert_ite {β : Type} (m : Finmap fun _ : ID => β) (k k' : ID) (v : β) :
    (m.insert k v).lookup k' = if k' = k then some v else m.lookup k' := by
  split_ifs with h
  · subst h
    exact Finmap.lookup_insert m
  · exact Finmap.lookup_insert_of_ne m h

theorem lookup_erase_ite {β : Type} (m : Finmap fun _ : ID => β) (k k' : ID) :
    (m.erase k).lookup k' = if k' = k then none else m.lookup k' := by
  split_ifs with h
  · subst h
    exact Finmap.lookup_erase k' m
  · exact Finmap.lookup_erase_ne h

/-! `find` characterizations of the tree operations. -/

theorem Tree.find_new (c : ID) : (Tree.new : Tree ID TM).find c = none :=
  Finmap.lookup_empty c

theorem Tree.find_rm_child (t : Tree ID TM) (c x : ID) :
    (t.rm_child c).find x = if x = c then none else t.find x := by
  unfold Tree.rm_child Tree.find
  cases h : t.triples.lookup c with
  | none =>
    simp only
    split_ifs with hx
    · subst hx
      exact h
    · rfl
  | some n =>
    simp only [lookup_erase_ite]

theorem Tree.find_add_node (t : Tree ID TM) (c x : ID) (tt : TreeNode ID TM) :
    (t.add_node c tt).find x = if x = c then some tt else t.find x := by
  unfold Tree.add_node Tree.find
  simp only [lookup_insert_ite]

theorem Tree.find_eq (t : Tree ID TM) (c : ID) : t.find c = t.triples.lookup c :=
  rfl

theorem Tree.eq_of_lookup {t1 t2 : Tree ID TM}
    (h1 : ∀ x, t1.triples.lookup x = t2.triples.lookup x)
    (h2 : ∀ p, t1.children.lookup p = t2.children.lookup p) : t1 = t2 := by
  cases t1
  cases t2
  simp only [Tree.mk.injEq]
  exact ⟨Finmap.ext_lookup h1, Finmap.ext_lookup h2⟩

theorem Tree.rm_child_of_none {t : Tree ID TM} {c : ID} (h : t.triples.lookup c = none) :
    t.rm_child c = t := by
  unfold Tree.rm_child
  rw [h]

theorem Tree.children_rm_child_of_find {t : Tree ID TM} {c : ID} {n : TreeNode ID TM}
    (h : t.triples.lookup c = some n) {S : Finset ID}
    (hS : t.children.lookup n.parent_id = some S) (p : ID) :
    (t.rm_child c).children.lookup p =
      if p = n.parent_id then
        (if S.erase c = ∅ then none else some (S.erase c))
      else t.children.lookup p := by
  unfold Tree.rm_child
  rw [h]
  simp only [hS]
  by_cases hE : S.erase c = ∅
  · simp [hE, lookup_erase_ite]
  · simp [hE, lookup_insert_ite]

theorem Tree.children_add_node_some {t : Tree ID TM} {c : ID} {tt : TreeNode ID TM}
    {S : Finset ID} (hS : t.children.lookup tt.parent_id = some S) (p : ID) :
    (t.add_node c tt).children.lookup p =
      if p = tt.parent_id then some (insert c S) else t.children.lookup p := by
  unfold Tree.add_node
  rw [hS]
  simp only [lookup_insert_ite]

theorem Tree.children_add_node_none {t : Tree ID TM} {c : ID} {tt : TreeNode ID TM}
    (hS : t.children.lookup tt.parent_id = none) (p : ID) :
    (t.add_node c tt).children.lookup p =
      if p = tt.parent_id then some {c} else t.children.lookup p := by
  unfold Tree.add_node
  rw [hS]
  simp only [lookup_insert_ite]

/-- Re-adding the exact triple just removed restores the tree (needs the
children-index invariant). -/
theorem Tree.restore_rm {t : Tree ID TM} (hcc : t.CC) {c : ID} {n : TreeNode ID TM}
    (h : t.triples.lookup c = some n) :
    (t.rm_child c).add_node c n = t := by
  obtain ⟨hci, hcl⟩ := hcc
  obtain ⟨S, hS, hcS⟩ := (hci n.parent_id c).mpr ⟨n, h, rfl⟩
  have hrm := Tree.children_rm_child_of_find h hS
  apply Tree.eq_of_lookup
  · intro x
    show ((t.rm_child c).add_node c n).find x = t.find x
    rw [Tree.find_add_node, Tree.find_rm_child]
    split_ifs with hx
    · subst hx
      rw [Tree.find_eq, h]
    · rfl
  · intro p
    by_cases hE : S.erase c = ∅
    · have hSc : S = {c} := by
        ext y
        simp only [Finset.mem_singleton]
        constructor
        · intro hy
          by_contra hne
          have : y ∈ S.erase c := Finset.mem_erase.mpr ⟨hne, hy⟩
          rw [hE] at this
          exact absurd this (Finset.not_mem_empty y)
        · intro hy
          subst hy
          exact hcS
      have hnone : (t.rm_child c).children.lookup n.parent_id = none := by
        rw [hrm]
        simp [hE]
      rw [Tree.children_add_node_none hnone p, hrm p]
      split_ifs with hp
      · rw [hp, hS, hSc]
      · rfl
    · have hsome : (t.rm_child c).children.lookup n.parent_id = some (S.erase c) := by
        rw [hrm]
        simp [hE]
      rw [Tree.children_add_node_some hsome p, hrm p]
      split_ifs with hp
      · rw [Finset.insert_erase hcS, hp, hS]
      · rfl

/-- Removing a freshly added node restores the tree (needs the children-index
invariant of the original tree). -/
theorem Tree.rm_add_fresh {t : Tree ID TM} (hcc : t.CC) {c : ID}
    (h : t.triples.lookup c = none) (tt : TreeNode ID TM) :
    (t.add_node c tt).rm_child c = t := by
  obtain ⟨hci, hcl⟩ := hcc
  have htr : (t.add_node c tt).triples.lookup c = some tt := by
    unfold Tree.add_node
    simp [lookup_insert_ite]
  apply Tree.eq_of_lookup
  · intro x
    show ((t.add_node c tt).rm_child c).find x = t.find x
    rw [Tree.find_rm_child, Tree.find_add_node]
    split_ifs with hx
    · subst hx
      rw [Tree.find_eq, h]
    · rfl
  · intro p
    cases hS : t.children.lookup tt.parent_id with
    | none =>
      have hA := Tree.children_add_node_none (t := t) (c := c) hS
      have hAS : (t.add_node c tt).children.lookup tt.parent_id = some {c} := by
        rw [hA]
        simp
      have hrm := Tree.children_rm_child_of_find htr hAS
      have hsing : ({c} : Finset ID).erase c = ∅ := by simp
      rw [hrm p]
      split_ifs with hp
      · rw [hp, hS]
      · rw [hA p]
        simp [hp]
    | some S =>
      have hcS : c ∉ S := by
        intro hc
        obtain ⟨m, hm, -⟩ := (hci tt.parent_id c).mp ⟨S, hS, hc⟩
        rw [h] at hm
        exact Option.noConfusion hm
      have hA := Tree.children_add_node_some (t := t) (c := c) hS
      have hAS : (t.add_node c tt).children.lookup tt.parent_id = some (insert c S) := by
        rw [hA]
        simp
      have hrm := Tree.children_rm_child_of_find htr hAS
      rw [hrm p]
      rw [Finset.erase_insert hcS]
      split_ifs with hp hE
      · exact absurd hE (hcl _ _ hS)
      · rw [hp, hS]
      · rw [hA p]
        simp [hp]

/-! Preservation of the children-index invariant. -/

theorem Tree.cc_new : (Tree.new : Tree ID TM).CC := by
  constructor
  · intro p c
    constructor
    · rintro ⟨S, hS, -⟩
      rw [show (Tree.new : Tree ID TM).children = ∅ from rfl, Finmap.lookup_empty] at hS
      exact Option.noConfusion hS
    · rintro ⟨n, hn, -⟩
      rw [show (Tree.new : Tree ID TM).triples = ∅ from rfl, Finmap.lookup_empty] at hn
      exact Option.noConfusion hn
  · intro p S hS
    rw [show (Tree.new : Tree ID TM).children = ∅ from rfl, Finmap.lookup_empty] at hS
    exact Option.noConfusion hS

theorem Tree.cc_rm_child {t : Tree ID TM} (hcc : t.CC) (c : ID) : (t.rm_child c).CC := by
  obtain ⟨hci, hcl⟩ := hcc
  cases h : t.triples.lookup c with
  | none =>
    rw [Tree.rm_child_of_none h]
    exact ⟨hci, hcl⟩
  | some n =>
    obtain ⟨S, hS, hcS⟩ := (hci n.parent_id c).mpr ⟨n, h, rfl⟩
    have hrm := Tree.children_rm_child_of_find h hS
    have htr : ∀ x, (t.rm_child c).triples.lookup x =
        if x = c then none else t.triples.lookup x :=
      fun x => Tree.find_rm_child t c x
    constructor
    · intro p x
      rw [hrm p, htr x]
      by_cases hx : x = c
      · simp only [if_pos hx]
        constructor
        · rintro ⟨S', hS', hxS'⟩
          split_ifs at hS' with hp hE
          · obtain rfl := Option.some.inj hS'
            rw [hx] at hxS'
            exact absurd hxS' (Finset.not_mem_erase c S)
          · obtain ⟨m, hm, hmp⟩ := (hci p x).mp ⟨S', hS', hxS'⟩
            rw [hx] at hm
            rw [h] at hm
            obtain rfl := Option.some.inj hm
            exact absurd hmp.symm hp
        · rintro ⟨m, hm, -⟩
          exact Option.noConfusion hm
      · simp only [if_neg hx]
        rw [← hci p x]
        constructor
        · rintro ⟨S', hS', hxS'⟩
          split_ifs at hS' with hp hE
          · obtain rfl := Option.some.inj hS'
            subst hp
            exact ⟨S, hS, (Finset.mem_erase.mp hxS').2⟩
          · exact ⟨S', hS', hxS'⟩
        · rintro ⟨S', hS', hxS'⟩
          split_ifs with hp hE
          · subst hp
            rw [hS] at hS'
            obtain rfl := Option.some.inj hS'
            have hmem : x ∈ S.erase c := Finset.mem_erase.mpr ⟨hx, hxS'⟩
            rw [hE] at hmem
            exact absurd hmem (Finset.not_mem_empty x)
          · subst hp
            rw [hS] at hS'
            obtain rfl := Option.some.inj hS'
            exact ⟨S.erase c, rfl, Finset.mem_erase.mpr ⟨hx, hxS'⟩⟩
          · exact ⟨S', hS', hxS'⟩
    · intro p S0 hS0
      rw [hrm p] at hS0
      split_ifs at hS0 with hp hE
      · obtain rfl := Option.some.inj hS0
        exact hE
      · exact hcl p S0 hS0


theorem Tree.cc_add_fresh {t : Tree ID TM} (hcc : t.CC) {c : ID}
    (h : t.triples.lookup c = none) (tt : TreeNode ID TM) : (t.add_node c tt).CC := by
  obtain ⟨hci, hcl⟩ := hcc
  have htr : ∀ x, (t.add_node c tt).triples.lookup x =
      if x = c then some tt else t.triples.lookup x :=
    fun x => Tree.find_add_node t c x tt
  cases hS : t.children.lookup tt.parent_id with
  | some S =>
    have hcS : c ∉ S := by
      intro hcmem
      obtain ⟨m, hm, -⟩ := (hci tt.parent_id c).mp ⟨S, hS, hcmem⟩
      rw [h] at hm
      exact Option.noConfusion hm
    have hA := Tree.children_add_node_some (t := t) (c := c) hS
    constructor
    · intro p x
      rw [hA p, htr x]
      by_cases hx : x = c
      · simp only [if_pos hx]
        constructor
        · rintro ⟨S', hS', hxS'⟩
          split_ifs at hS' with hp
          · exact ⟨tt, rfl, hp.symm⟩
          · obtain ⟨m, hm, -⟩ := (hci p x).mp ⟨S', hS', hxS'⟩
            rw [hx, h] at hm
            exact Option.noConfusion hm
        · rintro ⟨m, hm, hmp⟩
          obtain rfl := Option.some.inj hm
          rw [← hmp]
          exact ⟨insert c S, by simp, by rw [hx]; exact Finset.mem_insert_self c S⟩
      · simp only [if_neg hx]
        rw [← hci p x]
        constructor
        · rintro ⟨S', hS', hxS'⟩
          split_ifs at hS' with hp
          · obtain rfl := Option.some.inj hS'
            subst hp
            exact ⟨S, hS, (Finset.mem_insert.mp hxS').resolve_left hx⟩
          · exact ⟨S', hS', hxS'⟩
        · rintro ⟨S', hS', hxS'⟩
          split_ifs with hp
          · subst hp
            rw [hS] at hS'
            obtain rfl := Option.some.inj hS'
            exact ⟨insert c S, rfl, Finset.mem_insert_of_mem hxS'⟩
          · exact ⟨S', hS', hxS'⟩
    · intro p S0 hS0
      rw [hA p] at hS0
      split_ifs at hS0 with hp
      · obtain rfl := Option.some.inj hS0
        exact Finset.insert_ne_empty c S
      · exact hcl p S0 hS0
  | none =>
    have hA := Tree.children_add_node_none (t := t) (c := c) hS
    constructor
    · intro p x
      rw [hA p, htr x]
      by_cases hx : x = c
      · simp only [if_pos hx]
        constructor
        · rintro ⟨S', hS', hxS'⟩
          split_ifs at hS' with hp
          · exact ⟨tt, rfl, hp.symm⟩
          · obtain ⟨m, hm, -⟩ := (hci p x).mp ⟨S', hS', hxS'⟩
            rw [hx, h] at hm
            exact Option.noConfusion hm
        · rintro ⟨m, hm, hmp⟩
          obtain rfl := Option.some.inj hm
          rw [← hmp]
          exact ⟨{c}, by simp, by rw [hx]; exact Finset.mem_singleton_self c⟩
      · simp only [if_neg hx]
        rw [← hci p x]
        constructor
        · rintro ⟨S', hS', hxS'⟩
          split_ifs at hS' with hp
          · obtain rfl := Option.some.inj hS'
            exact absurd (Finset.mem_singleton.mp hxS') hx
          · exact ⟨S', hS', hxS'⟩
        · rintro ⟨S', hS', hxS'⟩
          split_ifs with hp
          · subst hp
            rw [hS] at hS'
            exact Option.noConfusion hS'
          · exact ⟨S', hS', hxS'⟩
    · intro p S0 hS0
      rw [hA p] at hS0
      split_ifs at hS0 with hp
      · obtain rfl := Option.some.inj hS0
        exact Finset.singleton_ne_empty c
      · exact hcl p S0 hS0

theorem Tree.cc_add_same {t : Tree ID TM} (hcc : t.CC) {c : ID} {n : TreeNode ID TM}
    (h : t.triples.lookup c = some n) (tt : TreeNode ID TM)
    (hpar : n.parent_id = tt.parent_id) : (t.add_node c tt).CC := by
  obtain ⟨hci, hcl⟩ := hcc
  obtain ⟨S, hS0, hcS⟩ := (hci n.parent_id c).mpr ⟨n, h, rfl⟩
  have hS : t.children.lookup tt.parent_id = some S := by
    rw [← hpar]
    exact hS0
  have htr : ∀ x, (t.add_node c tt).triples.lookup x =
      if x = c then some tt else t.triples.lookup x :=
    fun x => Tree.find_add_node t c x tt
  have hcS' : c ∈ S := hcS
  have hch : ∀ q, (t.add_node c tt).children.lookup q = t.children.lookup q := by
    intro q
    rw [Tree.children_add_node_some (c := c) hS q,
      Finset.insert_eq_self.mpr hcS']
    split_ifs with hq
    · rw [hq, hS]
    · rfl
  constructor
  · intro p x
    rw [hch p, htr x]
    by_cases hx : x = c
    · simp only [if_pos hx]
      constructor
      · intro hL
        obtain ⟨m, hm, hmp⟩ := (hci p x).mp hL
        rw [hx, h] at hm
        obtain rfl := Option.some.inj hm
        exact ⟨tt, rfl, by rw [← hpar]; exact hmp⟩
      · rintro ⟨m, hm, hmp⟩
        obtain rfl := Option.some.inj hm
        apply (hci p x).mpr
        refine ⟨n, by rw [hx]; exact h, ?_⟩
        rw [hpar]
        exact hmp
    · simp only [if_neg hx]
      exact hci p x
  · intro p S0 hS0'
    rw [hch p] at hS0'
    exact hcl p S0 hS0'

theorem Tree.find_rm_child_self (t : Tree ID TM) (c : ID) :
    (t.rm_child c).triples.lookup c = none := by
  have h := Tree.find_rm_child t c c
  rw [if_pos rfl] at h
  exact h

theorem Tree.cc_doMove {t : Tree ID TM} (hcc : t.CC) (op : OpMove ID TM A) :
    (t.doMove op).CC := by
  unfold Tree.doMove
  split_ifs with hg
  · exact hcc
  · exact Tree.cc_add_fresh (Tree.cc_rm_child hcc op.child_id)
      (Tree.find_rm_child_self t op.child_id) _

theorem Tree.cc_undoMove {t : Tree ID TM} (hcc : t.CC) (log : LogOpMove ID TM A) :
    (t.undoMove log).CC := by
  unfold Tree.undoMove
  cases log.oldp with
  | some oldp =>
    exact Tree.cc_add_fresh (Tree.cc_rm_child hcc log.child_id)
      (Tree.find_rm_child_self t log.child_id) _
  | none =>
    exact Tree.cc_rm_child hcc log.child_id

/-- `undo_op` exactly inverts `do_op` on the tree: undoing the log entry that
`do_op` just produced (whose `oldp` is the pre-move `find`) restores the tree.
This holds whether or not the op was rejected by the invariant check. -/
theorem Tree.undo_do {t : Tree ID TM} (hcc : t.CC) (op : OpMove ID TM A) :
    (t.doMove op).undoMove (LogOpMove.new op (t.find op.child_id)) = t := by
  simp only [Tree.doMove, Tree.undoMove, LogOpMove.new]
  split_ifs with hg
  · cases hf : t.find op.child_id with
    | none =>
      exact Tree.rm_child_of_none hf
    | some n =>
      exact Tree.restore_rm hcc hf
  · cases hf : t.find op.child_id with
    | none =>
      rw [Tree.rm_add_fresh (Tree.cc_rm_child hcc op.child_id)
        (Tree.find_rm_child_self t op.child_id) _]
      exact Tree.rm_child_of_none hf
    | some n =>
      rw [Tree.rm_add_fresh (Tree.cc_rm_child hcc op.child_id)
        (Tree.find_rm_child_self t op.child_id) _]
      exact Tree.restore_rm hcc hf

/-! State-level unfolding bridges (all definitional). -/

theorem State.do_op_eq (s : State ID TM A) (op : OpMove ID TM A) :
    s.do_op op =
      (LogOpMove.new op (s.tree.find op.child_id), ⟨s.log_op_list, s.tree.doMove op⟩) :=
  rfl

theorem State.undo_op_eq (s : State ID TM A) (log : LogOpMove ID TM A) :
    s.undo_op log = ⟨s.log_op_list, s.tree.undoMove log⟩ :=
  rfl

theorem State.redo_op_eq (s : State ID TM A) (logop : LogOpMove ID TM A) :
    s.redo_op logop =
      ⟨LogOpMove.new (OpMove.from_log_op_move logop)
          (s.tree.find (OpMove.from_log_op_move logop).child_id) :: s.log_op_list,
        s.tree.doMove (OpMove.from_log_op_move logop)⟩ :=
  rfl

theorem State.apply_op_list_nil (op : OpMove ID TM A) (tree : Tree ID TM) :
    State.apply_op_list op [] tree =
      ⟨[LogOpMove.new op (tree.find op.child_id)], tree.doMove op⟩ :=
  rfl

theorem State.apply_op_list_cons (op : OpMove ID TM A) (logop : LogOpMove ID TM A)
    (rest : List (LogOpMove ID TM A)) (tree : Tree ID TM) :
    State.apply_op_list op (logop :: rest) tree =
      if Clock.eqb op.timestamp logop.timestamp then ⟨logop :: rest, tree⟩
      else if Clock.ltb op.timestamp logop.timestamp then
        (State.apply_op_list op rest (tree.undoMove logop)).redo_op logop
      else ⟨LogOpMove.new op (tree.find op.child_id) :: logop :: rest, tree.doMove op⟩ :=
  rfl

/-- The tree of any applied state keeps the children-index invariant. -/
theorem State.cc_apply (op : OpMove ID TM A) :
    ∀ (l : List (LogOpMove ID TM A)) (tree : Tree ID TM), tree.CC →
      (State.apply_op_list op l tree).tree.CC := by
  intro l
  induction l with
  | nil =>
    intro tree h
    rw [State.apply_op_list_nil]
    exact Tree.cc_doMove h op
  | cons logop rest ih =>
    intro tree h
    rw [State.apply_op_list_cons]
    split_ifs with h1 h2
    · exact h
    · rw [State.redo_op_eq]
      exact Tree.cc_doMove (ih _ (Tree.cc_undoMove h logop)) _
    · exact Tree.cc_doMove h op

/-- Timestamps of an applied state's log all come from the op or the old log. -/
theorem State.apply_ts_subset (op : OpMove ID TM A) :
    ∀ (l : List (LogOpMove ID TM A)) (tree : Tree ID TM) (x : Clock A),
      x ∈ logTs (State.apply_op_list op l tree).log_op_list →
      x = op.timestamp ∨ x ∈ logTs l := by
  intro l
  induction l with
  | nil =>
    intro tree x hx
    rw [State.apply_op_list_nil] at hx
    simp only [logTs, List.map_cons, List.map_nil, List.mem_singleton] at hx
    exact Or.inl hx
  | cons logop rest ih =>
    intro tree x hx
    rw [State.apply_op_list_cons] at hx
    split_ifs at hx with h1 h2
    · exact Or.inr hx
    · rw [State.redo_op_eq] at hx
      simp only [logTs, List.map_cons, List.mem_cons, LogOpMove.new,
        OpMove.from_log_op_move] at hx
      rcases hx with hx | hx
      · refine Or.inr ?_
        simp only [logTs, List.map_cons, List.mem_cons]
        exact Or.inl hx
      · rcases ih _ x (by simpa [logTs] using hx) with h | h
        · exact Or.inl h
        · refine Or.inr ?_
          simp only [logTs, List.map_cons, List.mem_cons]
          exact Or.inr (by simpa [logTs] using h)
    · simp only [logTs, List.map_cons, List.mem_cons, LogOpMove.new] at hx
      rcases hx with hx | hx
      · exact Or.inl hx
      · refine Or.inr ?_
        simp only [logTs, List.map_cons, List.mem_cons]
        exact hx

/-- C3: for every tree state and every op that is a self-parent move
(`child_id = parent_id`) or whose new parent is a descendant of the child
(`is_ancestor(parent, child)`), `do_op` leaves the tree (and the whole state)
unchanged while still producing and returning the `LogOpMove` whose `oldp` is
`tree.find(child_id)` taken before the move; and whenever `apply_op` invokes
`do_op` directly on such an op (empty log, or a timestamp newer than the log
head) it records exactly that entry at the head of the log, tree unchanged. -/
theorem do_op_rejected_logs_without_tree_change (s : State ID TM A)
    (op : OpMove ID TM A)
    (hg : op.child_id = op.parent_id ∨
      s.tree.is_ancestor op.parent_id op.child_id = true) :
    s.do_op op = (LogOpMove.new op (s.tree.find op.child_id), s) ∧
    ((s.log_op_list = [] ∨
        (∃ logop rest, s.log_op_list = logop :: rest ∧
          Clock.Lt logop.timestamp op.timestamp)) →
      s.apply_op op =
        ⟨LogOpMove.new op (s.tree.find op.child_id) :: s.log_op_list, s.tree⟩) := by
  have hdo : s.tree.doMove op = s.tree := by
    unfold Tree.doMove
    rw [if_pos hg]
  constructor
  · rw [State.do_op_eq, hdo]
  · intro hcase
    unfold State.apply_op
    rcases hcase with hnil | ⟨logop, rest, hlog, hlt⟩
    · rw [hnil, State.apply_op_list_nil, hdo]
    · have he : ¬(Clock.eqb op.timestamp logop.timestamp = true) := by
        rw [Clock.eqb_iff]
        exact (Clock.Lt_ne hlt).symm
      have hl : ¬(Clock.ltb op.timestamp logop.timestamp = true) := by
        rw [Clock.ltb_iff]
        exact Clock.Lt_asymm hlt
      rw [hlog, State.apply_op_list_cons, if_neg he, if_neg hl, hdo]

theorem do_op_rejected_logs_without_tree_change_witness :
    ((⟨[], Tree.new.add_node 1 ⟨2, ()⟩⟩ : State Nat Unit Nat).do_op
        ⟨⟨0, 5⟩, 1, (), 2⟩ =
      (LogOpMove.new ⟨⟨0, 5⟩, 1, (), 2⟩ ((Tree.new.add_node 1 ⟨2, ()⟩).find 2),
        ⟨[], Tree.new.add_node 1 ⟨2, ()⟩⟩)) ∧
    ((⟨[], Tree.new.add_node 1 ⟨2, ()⟩⟩ : State Nat Unit Nat).apply_op
        ⟨⟨0, 5⟩, 1, (), 2⟩ =
      ⟨[LogOpMove.new ⟨⟨0, 5⟩, 1, (), 2⟩ ((Tree.new.add_node 1 ⟨2, ()⟩).find 2)],
        Tree.new.add_node 1 ⟨2, ()⟩⟩) :=
  ⟨(do_op_rejected_logs_without_tree_change _ _ (Or.inr (by decide))).1,
    (do_op_rejected_logs_without_tree_change _ _ (Or.inr (by decide))).2 (Or.inl rfl)⟩

/-! Parent-pointer chains, the ancestor relation, and the fueled walk. -/

theorem Tree.chainUp_append_split {t : Tree ID TM} (l1 : List ID) :
    ∀ (c x : ID) (l2 : List ID) (a : ID),
      t.ChainUp c (l1 ++ x :: l2) a → t.ChainUp c l1 x ∧ t.ChainUp x l2 a := by
  induction l1 with
  | nil =>
    intro c x l2 a h
    obtain ⟨n, hn, hp, hc⟩ := h
    exact ⟨⟨n, hn, hp⟩, hc⟩
  | cons y ys ih =>
    intro c x l2 a h
    obtain ⟨n, hn, hp, hc⟩ := h
    exact ⟨⟨n, hn, hp, (ih y x l2 a hc).1⟩, (ih y x l2 a hc).2⟩

theorem Tree.chainUp_append {t : Tree ID TM} (l1 : List ID) :
    ∀ (c x : ID) (l2 : List ID) (a : ID),
      t.ChainUp c l1 x → t.ChainUp x l2 a → t.ChainUp c (l1 ++ x :: l2) a := by
  induction l1 with
  | nil =>
    intro c x l2 a h1 h2
    obtain ⟨n, hn, hp⟩ := h1
    exact ⟨n, hn, hp, h2⟩
  | cons y ys ih =>
    intro c x l2 a h1 h2
    obtain ⟨n, hn, hp, hc⟩ := h1
    exact ⟨n, hn, hp, ih y x l2 a hc h2⟩

theorem Tree.chainUp_find_isSome {t : Tree ID TM} (l : List ID) :
    ∀ (c a : ID), t.ChainUp c l a →
      (t.find c).isSome = true ∧ ∀ x ∈ l, (t.find x).isSome = true := by
  induction l with
  | nil =>
    intro c a h
    obtain ⟨n, hn, -⟩ := h
    exact ⟨by rw [hn]; rfl, fun x hx => absurd hx (List.not_mem_nil x)⟩
  | cons y ys ih =>
    intro c a h
    obtain ⟨n, hn, hp, hc⟩ := h
    obtain ⟨h1, h2⟩ := ih y a hc
    refine ⟨by rw [hn]; rfl, ?_⟩
    intro x hx
    rcases List.mem_cons.mp hx with rfl | hx
    · exact h1
    · exact h2 x hx

theorem Tree.ancWalk_anc {t : Tree ID TM} (a : ID) :
    ∀ (fuel : Nat) (c : ID), t.ancWalk a fuel c = true → t.Anc c a := by
  intro fuel
  induction fuel with
  | zero =>
    intro c h
    exact absurd h (by simp [Tree.ancWalk])
  | succ fuel ih =>
    intro c h
    simp only [Tree.ancWalk] at h
    split at h
    · rename_i n heq
      split at h
      · rename_i hpar
        exact ⟨[], n, heq, hpar⟩
      · obtain ⟨l, hc⟩ := ih _ h
        exact ⟨n.parent_id :: l, n, heq, rfl, hc⟩
    · exact Bool.noConfusion h

theorem Tree.chainUp_ancWalk {t : Tree ID TM} (l : List ID) :
    ∀ (c a : ID) (fuel : Nat), t.ChainUp c l a → l.length + 1 ≤ fuel →
      t.ancWalk a fuel c = true := by
  induction l with
  | nil =>
    intro c a fuel h hf
    obtain ⟨n, hn, hp⟩ := h
    cases fuel with
    | zero => exact absurd hf (by omega)
    | succ f =>
      simp only [Tree.ancWalk, hn]
      simp [hp]
  | cons y ys ih =>
    intro c a fuel h hf
    obtain ⟨n, hn, hp, hc⟩ := h
    cases fuel with
    | zero => exact absurd hf (by omega)
    | succ f =>
      simp only [Tree.ancWalk, hn]
      by_cases ha : n.parent_id = a
      · simp [ha]
      · rw [if_neg ha, hp]
        exact ih y a f hc (by simp at hf; omega)

theorem Tree.acyclic_chain_nodup {t : Tree ID TM} (hac : t.Acyclic) (l : List ID) :
    ∀ (c a : ID), t.ChainUp c l a → (c :: l).Nodup := by
  induction l with
  | nil =>
    intro c a _
    simp
  | cons y ys ih =>
    intro c a h
    obtain ⟨n, hn, hp, hc⟩ := h
    rw [List.nodup_cons]
    refine ⟨?_, ih y a hc⟩
    intro hcm
    obtain ⟨l1, l2, hsplit⟩ := List.append_of_mem hcm
    have hch : t.ChainUp c (l1 ++ c :: l2) a := by
      rw [← hsplit]
      exact ⟨n, hn, hp, hc⟩
    exact hac c ⟨l1, (Tree.chainUp_append_split l1 c c l2 a hch).1⟩

/-- On acyclic trees, the fueled walk of `is_ancestor` decides exactly the
ancestor relation: the walk visits pairwise-distinct keys of the triples map,
so `size + 1` steps always suffice. -/
theorem Tree.anc_iff_is_ancestor {t : Tree ID TM} (hac : t.Acyclic) (c a : ID) :
    t.Anc c a ↔ t.is_ancestor c a = true := by
  constructor
  · rintro ⟨l, hch⟩
    unfold Tree.is_ancestor
    apply Tree.chainUp_ancWalk l c a _ hch
    have hnd := Tree.acyclic_chain_nodup hac l c a hch
    have hsome := Tree.chainUp_find_isSome l c a hch
    have hsub : ∀ x ∈ c :: l, x ∈ t.triples.keys := by
      intro x hx
      rw [Finmap.mem_keys, ← Finmap.lookup_isSome]
      rcases List.mem_cons.mp hx with rfl | hx
      · exact hsome.1
      · exact hsome.2 x hx
    have hcard : (c :: l).length ≤ t.triples.keys.card := by
      calc (c :: l).length = (c :: l).toFinset.card :=
            (List.toFinset_card_of_nodup hnd).symm
        _ ≤ t.triples.keys.card :=
            Finset.card_le_card (fun x hx => hsub x (List.mem_toFinset.mp hx))
    simp only [List.length_cons] at hcard
    unfold Tree.size
    omega
  · exact Tree.ancWalk_anc a _ c

theorem Tree.chainUp_transfer {t t' : Tree ID TM} {c : ID}
    (hft : ∀ x, x ≠ c → t'.find x = t.find x) (l : List ID) :
    ∀ (x a : ID), t'.ChainUp x l a → c ∉ x :: l → t.ChainUp x l a := by
  induction l with
  | nil =>
    intro x a h hnm
    obtain ⟨n, hn, hp⟩ := h
    have hxc : x ≠ c := fun heq => hnm (by rw [heq]; exact List.mem_singleton_self c)
    exact ⟨n, by rw [← hft x hxc]; exact hn, hp⟩
  | cons y ys ih =>
    intro x a h hnm
    obtain ⟨n, hn, hp, hc⟩ := h
    have hxc : x ≠ c := fun heq => hnm (by rw [heq]; exact List.mem_cons_self c _)
    refine ⟨n, by rw [← hft x hxc]; exact hn, hp, ?_⟩
    exact ih y a hc (fun hm => hnm (List.mem_cons_of_mem x hm))

/-- Moving `c` under a parent `p` that is neither `c` nor a descendant of `c`
keeps the tree acyclic. -/
theorem Tree.acyclic_add_of_not_anc {t : Tree ID TM} (hac : t.Acyclic) {c p : ID}
    (hnp : ¬ t.Anc p c) (hcp : c ≠ p) (m : TM) :
    ((t.rm_child c).add_node c ⟨p, m⟩).Acyclic := by
  set t' := (t.rm_child c).add_node c (⟨p, m⟩ : TreeNode ID TM) with ht'
  have hft : ∀ x, x ≠ c → t'.find x = t.find x := by
    intro x hx
    rw [ht', Tree.find_add_node, Tree.find_rm_child, if_neg hx, if_neg hx]
  have hfc : t'.find c = some ⟨p, m⟩ := by
    rw [ht', Tree.find_add_node, if_pos rfl]
  have keyC : ∀ (k : Nat) (l : List ID), l.length ≤ k → t'.ChainUp c l c → False := by
    intro k
    induction k with
    | zero =>
      intro l hlen hch
      have hl : l = [] := List.eq_nil_of_length_eq_zero (Nat.le_zero.mp hlen)
      subst hl
      obtain ⟨n, hn, hp⟩ := hch
      rw [hfc] at hn
      obtain rfl := Option.some.inj hn
      exact hcp hp.symm
    | succ k ihk =>
      intro l hlen hch
      cases l with
      | nil =>
        obtain ⟨n, hn, hp⟩ := hch
        rw [hfc] at hn
        obtain rfl := Option.some.inj hn
        exact hcp hp.symm
      | cons y ys =>
        obtain ⟨n, hn, hp, hc2⟩ := hch
        rw [hfc] at hn
        obtain rfl := Option.some.inj hn
        have hp' : p = y := hp
        subst hp'
        by_cases hcm : c ∈ p :: ys
        · rcases List.mem_cons.mp hcm with heq | hcm2
          · exact hcp heq
          · obtain ⟨l1, l2, hsplit⟩ := List.append_of_mem hcm2
            subst hsplit
            obtain ⟨h1, h2⟩ := Tree.chainUp_append_split l1 p c l2 c hc2
            refine ihk l2 ?_ h2
            simp only [List.length_cons, List.length_append] at hlen
            omega
        · exact hnp ⟨ys, Tree.chainUp_transfer hft ys p c hc2 hcm⟩
  intro x hanc
  obtain ⟨l, hch⟩ := hanc
  by_cases hcm : c ∈ x :: l
  · rcases List.mem_cons.mp hcm with heq | hcm2
    · subst heq
      exact keyC l.length l le_rfl hch
    · obtain ⟨l1, l2, hsplit⟩ := List.append_of_mem hcm2
      subst hsplit
      obtain ⟨h1, h2⟩ := Tree.chainUp_append_split l1 x c l2 x hch
      exact keyC (l2 ++ x :: l1).length (l2 ++ x :: l1) le_rfl
        (Tree.chainUp_append l2 c x l1 c h2 h1)
  · exact hac x ⟨l, Tree.chainUp_transfer hft l x x hch hcm⟩

theorem Tree.acyclic_new : (Tree.new : Tree ID TM).Acyclic := by
  intro n hanc
  obtain ⟨l, hch⟩ := hanc
  cases l with
  | nil =>
    obtain ⟨m, hm, -⟩ := hch
    rw [Tree.find_new] at hm
    exact Option.noConfusion hm
  | cons y ys =>
    obtain ⟨m, hm, -, -⟩ := hch
    rw [Tree.find_new] at hm
    exact Option.noConfusion hm

theorem Tree.acyclic_doMove {t : Tree ID TM} (hac : t.Acyclic) (op : OpMove ID TM A) :
    (t.doMove op).Acyclic := by
  unfold Tree.doMove
  split_ifs with hg
  · exact hac
  · push_neg at hg
    have hnp : ¬ t.Anc op.parent_id op.child_id := fun h =>
      hg.2 ((Tree.anc_iff_is_ancestor hac _ _).mp h)
    exact Tree.acyclic_add_of_not_anc hac hnp hg.1 op.metadata

/-! The replay invariant: a state's tree is the replay of its log. -/

theorem replayTree_nil : replayTree ([] : List (LogOpMove ID TM A)) = Tree.new :=
  rfl

theorem replayTree_cons (l : LogOpMove ID TM A) (ls : List (LogOpMove ID TM A)) :
    replayTree (l :: ls) = (replayTree ls).doMove (OpMove.from_log_op_move l) :=
  rfl

theorem Tree.cc_replay : ∀ l : List (LogOpMove ID TM A), (replayTree l).CC := by
  intro l
  induction l with
  | nil => exact Tree.cc_new
  | cons x xs ih => exact Tree.cc_doMove ih _

theorem Tree.acyclic_replay : ∀ l : List (LogOpMove ID TM A), (replayTree l).Acyclic := by
  intro l
  induction l with
  | nil => exact Tree.acyclic_new
  | cons x xs ih => exact Tree.acyclic_doMove ih _

/-- Applying any op preserves descending timestamps, `oldp`-consistency of the
log, and the tree being the replay of the log.  No uniqueness assumption is
needed. -/
theorem Replayed_apply (op : OpMove ID TM A) :
    ∀ (l : List (LogOpMove ID TM A)) (tree : Tree ID TM),
      descLog l → logOk l → tree = replayTree l →
      descLog (State.apply_op_list op l tree).log_op_list ∧
      logOk (State.apply_op_list op l tree).log_op_list ∧
      (State.apply_op_list op l tree).tree =
        replayTree (State.apply_op_list op l tree).log_op_list := by
  intro l
  induction l with
  | nil =>
    intro tree hd hk ht
    rw [State.apply_op_list_nil]
    subst ht
    refine ⟨?_, ⟨trivial, rfl⟩, rfl⟩
    simp [descLog]
  | cons logop rest ih =>
    intro tree hd hk ht
    have hd' : List.Pairwise (fun x y => Clock.Lt y.timestamp x.timestamp) (logop :: rest) := hd
    have hdrest : descLog rest := (List.pairwise_cons.mp hd').2
    have hhead : ∀ y ∈ rest, Clock.Lt y.timestamp logop.timestamp :=
      (List.pairwise_cons.mp hd').1
    have hkrest : logOk rest := hk.1
    have hold : logop.oldp = (replayTree rest).find logop.child_id := hk.2
    rw [State.apply_op_list_cons]
    split_ifs with h1 h2
    · exact ⟨hd, hk, ht⟩
    · -- undo, recursive apply, redo
      have hcc : (replayTree rest).CC := Tree.cc_replay rest
      have hLo : logop = LogOpMove.new (OpMove.from_log_op_move logop)
          ((replayTree rest).find logop.child_id) := by
        cases logop with
        | mk ts p m c oldp =>
          simp only [LogOpMove.new, OpMove.from_log_op_move]
          simp only at hold
          rw [hold]
      have hundo : tree.undoMove logop = replayTree rest := by
        rw [ht, replayTree_cons]
        conv_lhs => rw [hLo]
        exact Tree.undo_do hcc (OpMove.from_log_op_move logop)
      obtain ⟨ihd, ihk, iht⟩ := ih (tree.undoMove logop) hdrest hkrest (by rw [hundo])
      rw [State.redo_op_eq]
      refine ⟨?_, ⟨ihk, ?_⟩, ?_⟩
      · show List.Pairwise _ (_ :: _)
        refine List.Pairwise.cons ?_ ihd
        intro y hy
        show Clock.Lt y.timestamp logop.timestamp
        have hyts : y.timestamp = op.timestamp ∨ y.timestamp ∈ logTs rest := by
          apply State.apply_ts_subset op rest (tree.undoMove logop) y.timestamp
          exact List.mem_map_of_mem _ hy
        rcases hyts with h | h
        · rw [h]
          exact (Clock.ltb_iff _ _).mp h2
        · obtain ⟨e, he, hets⟩ := List.mem_map.mp h
          rw [← hets]
          exact hhead e he
      · show (State.apply_op_list op rest (tree.undoMove logop)).tree.find logop.child_id =
          (replayTree (State.apply_op_list op rest (tree.undoMove logop)).log_op_list).find
            logop.child_id
        rw [iht]
      · show (State.apply_op_list op rest (tree.undoMove logop)).tree.doMove
            (OpMove.from_log_op_move logop) = _
        rw [iht]
        rfl
    · -- push at the head
      have hgt : Clock.Lt logop.timestamp op.timestamp := by
        apply Clock.gt_of_not_lt_not_eq
        · exact fun hlt => h2 ((Clock.ltb_iff _ _).mpr hlt)
        · exact fun heq => h1 ((Clock.eqb_iff _ _).mpr heq)
      refine ⟨?_, ⟨hk, ?_⟩, ?_⟩
      · show List.Pairwise _ (_ :: _)
        refine List.Pairwise.cons ?_ hd'
        intro y hy
        show Clock.Lt y.timestamp op.timestamp
        rcases List.mem_cons.mp hy with rfl | hy
        · exact hgt
        · exact Clock.Lt_trans (hhead y hy) hgt
      · show tree.find op.child_id = (replayTree (logop :: rest)).find op.child_id
        rw [ht]
      · show tree.doMove op = replayTree (_ :: logop :: rest)
        rw [ht]
        rfl

theorem Replayed_new : Replayed (State.new : State ID TM A) :=
  ⟨List.Pairwise.nil, trivial, rfl⟩

theorem Replayed_apply_op {s : State ID TM A} (h : Replayed s) (op : OpMove ID TM A) :
    Replayed (s.apply_op op) := by
  obtain ⟨hd, hk, ht⟩ := h
  exact Replayed_apply op s.log_op_list s.tree hd hk ht

theorem Replayed_apply_ops (ops : List (OpMove ID TM A)) :
    ∀ s : State ID TM A, Replayed s → Replayed (s.apply_ops ops) := by
  induction ops with
  | nil => exact fun s h => h
  | cons o os ih =>
    intro s h
    exact ih (s.apply_op o) (Replayed_apply_op h o)

/-- C2: every state reachable from `State::new` by any sequence of `apply_op`
calls has an acyclic tree: no node id is its own ancestor under
`Tree::is_ancestor`. -/
theorem reachable_tree_acyclic (ops : List (OpMove ID TM A)) (n : ID) :
    ((State.new : State ID TM A).apply_ops ops).tree.is_ancestor n n = false := by
  obtain ⟨-, -, ht⟩ := Replayed_apply_ops ops State.new Replayed_new
  rw [ht]
  have hac := Tree.acyclic_replay
    ((State.new : State ID TM A).apply_ops ops).log_op_list
  cases hb : (replayTree ((State.new : State ID TM A).apply_ops ops).log_op_list).is_ancestor n n
  · rfl
  · exact absurd (Tree.ancWalk_anc n _ n hb) (hac n)

/-- C4: for every state reachable from `State::new` by applying a sequence of
ops with globally unique timestamps, the log is strictly descending: each
entry's timestamp is strictly greater than the next (older) entry's. -/
theorem reachable_log_descending (ops : List (OpMove ID TM A))
    (_hU : (ops.map (fun o => o.timestamp)).Nodup) :
    ((State.new : State ID TM A).apply_ops ops).log_op_list.Chain'
      (fun a b => Clock.Lt b.timestamp a.timestamp) := by
  have hrep := Replayed_apply_ops ops State.new Replayed_new
  exact List.Pairwise.chain' hrep.1

theorem reachable_log_descending_witness :
    ((([⟨⟨1, 1⟩, 0, (), 1⟩, ⟨⟨2, 1⟩, 0, (), 2⟩] :
        List (OpMove Nat Unit Nat)).map (fun o => o.timestamp)).Nodup) ∧
    ((State.new : State Nat Unit Nat).apply_ops
        [⟨⟨1, 1⟩, 0, (), 1⟩, ⟨⟨2, 1⟩, 0, (), 2⟩]).log_op_list.Chain'
      (fun a b => Clock.Lt b.timestamp a.timestamp) :=
  ⟨by decide, reachable_log_descending _ (by decide)⟩

/-! The children index under raw `add_node`/`rm_child` sequences. -/

theorem Tree.fwd_new : (Tree.new : Tree ID TM).FwdIndex := by
  intro c n hn
  rw [show (Tree.new : Tree ID TM).triples = ∅ from rfl, Finmap.lookup_empty] at hn
  exact Option.noConfusion hn

theorem Tree.fwd_add_node {t : Tree ID TM} (hf : t.FwdIndex) (c : ID)
    (tt : TreeNode ID TM) : (t.add_node c tt).FwdIndex := by
  intro x m hm
  rw [show (t.add_node c tt).triples.lookup x = _ from Tree.find_add_node t c x tt] at hm
  by_cases hx : x = c
  · subst hx
    rw [if_pos rfl] at hm
    obtain rfl := Option.some.inj hm
    cases hS : t.children.lookup tt.parent_id with
    | some S =>
      refine ⟨insert x S, ?_, Finset.mem_insert_self x S⟩
      rw [Tree.children_add_node_some hS]
      simp
    | none =>
      refine ⟨{x}, ?_, Finset.mem_singleton_self x⟩
      rw [Tree.children_add_node_none hS]
      simp
  · rw [if_neg hx] at hm
    obtain ⟨S, hS, hxS⟩ := hf x m hm
    by_cases hp : m.parent_id = tt.parent_id
    · cases hS0 : t.children.lookup tt.parent_id with
      | some S0 =>
        rw [hp, hS0] at hS
        obtain rfl := Option.some.inj hS
        refine ⟨insert c S0, ?_, Finset.mem_insert_of_mem hxS⟩
        rw [Tree.children_add_node_some hS0, if_pos hp]
      | none =>
        rw [hp, hS0] at hS
        exact Option.noConfusion hS
    · refine ⟨S, ?_, hxS⟩
      cases hS0 : t.children.lookup tt.parent_id with
      | some S0 =>
        rw [Tree.children_add_node_some hS0, if_neg hp]
        exact hS
      | none =>
        rw [Tree.children_add_node_none hS0, if_neg hp]
        exact hS

theorem Tree.fwd_rm_child {t : Tree ID TM} (hf : t.FwdIndex) (c : ID) :
    (t.rm_child c).FwdIndex := by
  cases h : t.triples.lookup c with
  | none =>
    rw [Tree.rm_child_of_none h]
    exact hf
  | some n =>
    cases hS : t.children.lookup n.parent_id with
    | none =>
      have hch : (t.rm_child c).children = t.children := by
        simp only [Tree.rm_child, h, hS]
      intro x m hm
      rw [show (t.rm_child c).triples.lookup x = _ from Tree.find_rm_child t c x] at hm
      by_cases hx : x = c
      · rw [if_pos hx] at hm
        exact Option.noConfusion hm
      · rw [if_neg hx] at hm
        rw [hch]
        exact hf x m hm
    | some S =>
      have hrm := Tree.children_rm_child_of_find h hS
      intro x m hm
      rw [show (t.rm_child c).triples.lookup x = _ from Tree.find_rm_child t c x] at hm
      by_cases hx : x = c
      · rw [if_pos hx] at hm
        exact Option.noConfusion hm
      · rw [if_neg hx] at hm
        obtain ⟨S', hS', hxS'⟩ := hf x m hm
        rw [hrm m.parent_id]
        by_cases hp : m.parent_id = n.parent_id
        · rw [if_pos hp]
          rw [hp, hS] at hS'
          obtain rfl := Option.some.inj hS'
          have hxe : x ∈ S.erase c := Finset.mem_erase.mpr ⟨hx, hxS'⟩
          by_cases hE : S.erase c = ∅
          · rw [hE] at hxe
            exact absurd hxe (Finset.not_mem_empty x)
          · rw [if_neg hE]
            exact ⟨S.erase c, rfl, hxe⟩
        · rw [if_neg hp]
          exact ⟨S', hS', hxS'⟩

theorem Tree.fwd_applyTreeOps (ops : List (TreeOp ID TM)) :
    ∀ t : Tree ID TM, t.FwdIndex → (t.applyTreeOps ops).FwdIndex := by
  induction ops with
  | nil => exact fun t h => h
  | cons o os ih =>
    intro t h
    refine ih (t.applyTreeOp o) ?_
    cases o with
    | add_node c tt => exact Tree.fwd_add_node h c tt
    | rm_child c => exact Tree.fwd_rm_child h c

theorem Tree.cc_applyTreeOps_safe (ops : List (TreeOp ID TM)) :
    ∀ t : Tree ID TM, t.CC → SafeTreeOps t ops → (t.applyTreeOps ops).CC := by
  induction ops with
  | nil => exact fun t h _ => h
  | cons o os ih =>
    intro t h hs
    obtain ⟨h1, h2⟩ := hs
    refine ih (t.applyTreeOp o) ?_ h2
    cases o with
    | add_node c tt =>
      rcases h1 with hnone | ⟨n, hn, hpar⟩
      · exact Tree.cc_add_fresh h hnone tt
      · exact Tree.cc_add_same h hn tt hpar
    | rm_child c => exact Tree.cc_rm_child h c

/-- C7 (counterexample): after `add_node(1, parent 2)` then `add_node(1,
parent 3)` — an overwrite with a new parent — the children index is not
consistent with the triples map: `children[2]` still contains `1` although
`triples[1].parent_id = 3`. -/
theorem children_index_inconsistent_after_overwrite :
    ¬ ((Tree.new : Tree Nat Unit).applyTreeOps
        [TreeOp.add_node 1 ⟨2, ()⟩, TreeOp.add_node 1 ⟨3, ()⟩]).ConsIndex := by
  intro h
  have hmem : ∃ S, ((Tree.new : Tree Nat Unit).applyTreeOps
      [TreeOp.add_node 1 ⟨2, ()⟩, TreeOp.add_node 1 ⟨3, ()⟩]).children.lookup 2 =
        some S ∧ 1 ∈ S :=
    ⟨{1}, rfl, Finset.mem_singleton_self 1⟩
  obtain ⟨n, hn, hp⟩ := (h 2 1).mp hmem
  have hl : ((Tree.new : Tree Nat Unit).applyTreeOps
      [TreeOp.add_node 1 ⟨2, ()⟩, TreeOp.add_node 1 ⟨3, ()⟩]).triples.lookup 1 =
      some ⟨3, ()⟩ := rfl
  rw [hl] at hn
  obtain rfl := Option.some.inj hn
  exact absurd hp (by decide)

/-- C7 (amended): after any sequence of `add_node`/`rm_child` calls from
`Tree::new`, the children index contains every triple (if
`triples[c].parent_id = p` then `children[p]` contains `c`); the claimed full
equivalence holds provided every `add_node` either targets a child absent
from the tree or keeps the child's parent unchanged — an overwrite with a new
parent leaves the old index entry behind, so only the forward inclusion
survives in general. -/
theorem children_index_consistency_amended :
    (∀ ops : List (TreeOp ID TM), ((Tree.new : Tree ID TM).applyTreeOps ops).FwdIndex) ∧
    (∀ ops : List (TreeOp ID TM), SafeTreeOps Tree.new ops →
      ((Tree.new : Tree ID TM).applyTreeOps ops).ConsIndex) := by
  constructor
  · intro ops
    exact Tree.fwd_applyTreeOps ops Tree.new Tree.fwd_new
  · intro ops hs
    exact (Tree.cc_applyTreeOps_safe ops Tree.new Tree.cc_new hs).1

theorem children_index_consistency_amended_witness :
    SafeTreeOps (Tree.new : Tree Nat Unit)
        [TreeOp.add_node 1 ⟨2, ()⟩, TreeOp.rm_child 1, TreeOp.add_node 1 ⟨3, ()⟩] ∧
    ((Tree.new : Tree Nat Unit).applyTreeOps
        [TreeOp.add_node 1 ⟨2, ()⟩, TreeOp.rm_child 1,
          TreeOp.add_node 1 ⟨3, ()⟩]).ConsIndex :=
  ⟨⟨Or.inl rfl, trivial, Or.inl rfl, trivial⟩,
    children_index_consistency_amended.2 _ ⟨Or.inl rfl, trivial, Or.inl rfl, trivial⟩⟩

/-! Commutation of `apply_op` for ops with fresh, distinct timestamps. -/

theorem logTs_cons (l : LogOpMove ID TM A) (ls : List (LogOpMove ID TM A)) :
    logTs (l :: ls) = l.timestamp :: logTs ls :=
  rfl

theorem apply_cons_gt {op : OpMove ID TM A} {L : LogOpMove ID TM A}
    (h : Clock.Lt L.timestamp op.timestamp) (ls : List (LogOpMove ID TM A))
    (tree : Tree ID TM) :
    State.apply_op_list op (L :: ls) tree =
      ⟨LogOpMove.new op (tree.find op.child_id) :: L :: ls, tree.doMove op⟩ := by
  rw [State.apply_op_list_cons]
  rw [if_neg (show ¬(Clock.eqb op.timestamp L.timestamp = true) from by
    rw [Clock.eqb_iff]
    exact (Clock.Lt_ne h).symm)]
  rw [if_neg (show ¬(Clock.ltb op.timestamp L.timestamp = true) from by
    rw [Clock.ltb_iff]
    exact Clock.Lt_asymm h)]

theorem apply_cons_lt {op : OpMove ID TM A} {L : LogOpMove ID TM A}
    (h : Clock.Lt op.timestamp L.timestamp) (ls : List (LogOpMove ID TM A))
    (tree : Tree ID TM) :
    State.apply_op_list op (L :: ls) tree =
      (State.apply_op_list op ls (tree.undoMove L)).redo_op L := by
  rw [State.apply_op_list_cons]
  rw [if_neg (show ¬(Clock.eqb op.timestamp L.timestamp = true) from by
    rw [Clock.eqb_iff]
    exact Clock.Lt_ne h)]
  rw [if_pos ((Clock.ltb_iff _ _).mpr h)]

theorem apply_ne_nil (op : OpMove ID TM A) (l : List (LogOpMove ID TM A))
    (tree : Tree ID TM) : (State.apply_op_list op l tree).log_op_list ≠ [] := by
  cases l with
  | nil =>
    rw [State.apply_op_list_nil]
    simp
  | cons a as =>
    rw [State.apply_op_list_cons]
    split_ifs
    · simp
    · rw [State.redo_op_eq]
      simp
    · simp

/-- The central commutation lemma: applying two ops with distinct timestamps,
both fresh for the (descending) log, in either order yields the same state.
Stated for `op1.timestamp < op2.timestamp`; the general case follows by
symmetry. -/
theorem apply_swap_of_lt (op1 op2 : OpMove ID TM A)
    (h12 : Clock.Lt op1.timestamp op2.timestamp) :
    ∀ (l : List (LogOpMove ID TM A)) (tree : Tree ID TM),
      descLog l → tree.CC →
      op1.timestamp ∉ logTs l → op2.timestamp ∉ logTs l →
      State.apply_op_list op2 (State.apply_op_list op1 l tree).log_op_list
          (State.apply_op_list op1 l tree).tree =
        State.apply_op_list op1 (State.apply_op_list op2 l tree).log_op_list
          (State.apply_op_list op2 l tree).tree := by
  intro l
  induction l with
  | nil =>
    intro tree hd hcc hf1 hf2
    rw [State.apply_op_list_nil, State.apply_op_list_nil]
    dsimp only
    rw [apply_cons_gt (show Clock.Lt
      (LogOpMove.new op1 (tree.find op1.child_id)).timestamp op2.timestamp from h12)]
    rw [apply_cons_lt (show Clock.Lt op1.timestamp
      (LogOpMove.new op2 (tree.find op2.child_id)).timestamp from h12)]
    rw [Tree.undo_do hcc op2]
    rw [State.apply_op_list_nil, State.redo_op_eq]
    rfl
  | cons logop rest ih =>
    intro tree hd hcc hf1 hf2
    have hd' : List.Pairwise (fun x y => Clock.Lt y.timestamp x.timestamp)
        (logop :: rest) := hd
    have hdrest : descLog rest := (List.pairwise_cons.mp hd').2
    have hhead : ∀ y ∈ rest, Clock.Lt y.timestamp logop.timestamp :=
      (List.pairwise_cons.mp hd').1
    rw [logTs_cons] at hf1 hf2
    have hf1h : op1.timestamp ≠ logop.timestamp :=
      fun h => hf1 (by rw [h]; exact List.mem_cons_self _ _)
    have hf1r : op1.timestamp ∉ logTs rest :=
      fun h => hf1 (List.mem_cons_of_mem _ h)
    have hf2h : op2.timestamp ≠ logop.timestamp :=
      fun h => hf2 (by rw [h]; exact List.mem_cons_self _ _)
    have hf2r : op2.timestamp ∉ logTs rest :=
      fun h => hf2 (List.mem_cons_of_mem _ h)
    rcases Clock.Lt_total hf2h with h2lt | h2gt
    · -- op2 below the head: both sides pop the head, recurse, redo
      have h1lt : Clock.Lt op1.timestamp logop.timestamp := Clock.Lt_trans h12 h2lt
      have hcc' : (tree.undoMove logop).CC := Tree.cc_undoMove hcc logop
      have hcc1 : (State.apply_op_list op1 rest (tree.undoMove logop)).tree.CC :=
        State.cc_apply op1 rest (tree.undoMove logop) hcc'
      have hcc2 : (State.apply_op_list op2 rest (tree.undoMove logop)).tree.CC :=
        State.cc_apply op2 rest (tree.undoMove logop) hcc'
      rw [apply_cons_lt h1lt, apply_cons_lt h2lt, State.redo_op_eq, State.redo_op_eq]
      dsimp only
      rw [apply_cons_lt (show Clock.Lt op2.timestamp
        (LogOpMove.new (OpMove.from_log_op_move logop)
          ((State.apply_op_list op1 rest (tree.undoMove logop)).tree.find
            (OpMove.from_log_op_move logop).child_id)).timestamp from h2lt)]
      rw [apply_cons_lt (show Clock.Lt op1.timestamp
        (LogOpMove.new (OpMove.from_log_op_move logop)
          ((State.apply_op_list op2 rest (tree.undoMove logop)).tree.find
            (OpMove.from_log_op_move logop).child_id)).timestamp from h1lt)]
      rw [Tree.undo_do hcc1 (OpMove.from_log_op_move logop)]
      rw [Tree.undo_do hcc2 (OpMove.from_log_op_move logop)]
      rw [ih (tree.undoMove logop) hdrest hcc' hf1r hf2r]
      rfl
    · -- op2 above the head: it lands at the top on both sides
      have hu := apply_ne_nil op1 (logop :: rest) tree
      obtain ⟨Lu, lu, hul⟩ := List.exists_cons_of_ne_nil hu
      have hbound : ∀ x ∈ logTs (State.apply_op_list op1 (logop :: rest)
          tree).log_op_list, Clock.Lt x op2.timestamp := by
        intro x hx
        rcases State.apply_ts_subset op1 (logop :: rest) tree x hx with h | h
        · rw [h]
          exact h12
        · rw [logTs_cons] at h
          rcases List.mem_cons.mp h with rfl | h
          · exact h2gt
          · obtain ⟨e, he, hets⟩ := List.mem_map.mp h
            rw [← hets]
            exact Clock.Lt_trans (hhead e he) h2gt
      have hLu : Clock.Lt Lu.timestamp op2.timestamp := by
        apply hbound
        rw [hul, logTs_cons]
        exact List.mem_cons_self _ _
      rw [apply_cons_gt h2gt]
      dsimp only
      rw [apply_cons_lt (show Clock.Lt op1.timestamp
        (LogOpMove.new op2 (tree.find op2.child_id)).timestamp from h12)]
      rw [Tree.undo_do hcc op2]
      rw [State.redo_op_eq]
      rw [hul]
      rw [apply_cons_gt hLu]
      rfl

theorem apply_op_swap (op1 op2 : OpMove ID TM A) (hne : op1.timestamp ≠ op2.timestamp)
    (s : State ID TM A) (hd : descLog s.log_op_list) (hcc : s.tree.CC)
    (hf1 : op1.timestamp ∉ logTs s.log_op_list)
    (hf2 : op2.timestamp ∉ logTs s.log_op_list) :
    (s.apply_op op1).apply_op op2 = (s.apply_op op2).apply_op op1 := by
  rcases Clock.Lt_total hne with h | h
  · exact apply_swap_of_lt op1 op2 h s.log_op_list s.tree hd hcc hf1 hf2
  · exact (apply_swap_of_lt op2 op1 h s.log_op_list s.tree hd hcc hf2 hf1).symm

/-- Permutation-equal delivery orders of fresh uniquely-timestamped ops give
equal states. -/
theorem apply_ops_perm {l1 l2 : List (OpMove ID TM A)} (hperm : l1.Perm l2) :
    ∀ s : State ID TM A, Replayed s →
      (∀ x ∈ l1.map (fun o => o.timestamp), x ∉ logTs s.log_op_list) →
      (l1.map (fun o => o.timestamp)).Nodup →
      s.apply_ops l1 = s.apply_ops l2 := by
  induction hperm with
  | nil =>
    intro s _ _ _
    rfl
  | cons x h ih =>
    intro s hrep hfresh hnd
    simp only [State.apply_ops, State.apply_ops_into, List.foldl_cons]
    apply ih (s.apply_op x) (Replayed_apply_op hrep x)
    · intro y hy hmem
      rcases State.apply_ts_subset x s.log_op_list s.tree y hmem with heq | hold
      · exact (List.nodup_cons.mp (by simpa using hnd)).1 (heq ▸ hy)
      · exact hfresh y (List.mem_cons_of_mem _ (by simpa using hy)) hold
    · exact (List.nodup_cons.mp (by simpa using hnd)).2
  | swap a b l =>
    intro s hrep hfresh hnd
    obtain ⟨hd, hk, ht⟩ := hrep
    have hcc : s.tree.CC := by
      rw [ht]
      exact Tree.cc_replay _
    simp only [List.map_cons, List.nodup_cons, List.mem_cons] at hnd
    have hne : b.timestamp ≠ a.timestamp := fun h => hnd.1 (Or.inl h)
    have hfb : b.timestamp ∉ logTs s.log_op_list :=
      hfresh b.timestamp (by simp)
    have hfa : a.timestamp ∉ logTs s.log_op_list :=
      hfresh a.timestamp (by simp)
    have hXY : (s.apply_op b).apply_op a = (s.apply_op a).apply_op b :=
      apply_op_swap b a hne s hd hcc hfb hfa
    simp only [State.apply_ops, State.apply_ops_into, List.foldl_cons]
    rw [hXY]
  | trans h1 h2 ih1 ih2 =>
    intro s hrep hfresh hnd
    rw [ih1 s hrep hfresh hnd]
    apply ih2 s hrep
    · intro x hx
      exact hfresh x ((h1.map (fun o => o.timestamp)).mem_iff.mpr hx)
    · exact ((h1.map (fun o => o.timestamp)).nodup_iff).mp hnd

/-- C1: with timestamps globally unique across both sequences, applying
`o1 ++ o2` and `o2 ++ o1` to a fresh state via `apply_op` yields equal states
(tree and log); more generally, any two delivery orders (permutations) of the
same uniquely-timestamped ops yield equal states. -/
theorem apply_ops_commute :
    (∀ os1 os2 : List (OpMove ID TM A),
      ((os1 ++ os2).map (fun o => o.timestamp)).Nodup →
      (State.new : State ID TM A).apply_ops (os1 ++ os2) =
        (State.new : State ID TM A).apply_ops (os2 ++ os1)) ∧
    (∀ l1 l2 : List (OpMove ID TM A), l1.Perm l2 →
      (l1.map (fun o => o.timestamp)).Nodup →
      (State.new : State ID TM A).apply_ops l1 =
        (State.new : State ID TM A).apply_ops l2) := by
  have main : ∀ l1 l2 : List (OpMove ID TM A), l1.Perm l2 →
      (l1.map (fun o => o.timestamp)).Nodup →
      (State.new : State ID TM A).apply_ops l1 =
        (State.new : State ID TM A).apply_ops l2 := by
    intro l1 l2 hp hnd
    exact apply_ops_perm hp State.new Replayed_new
      (by intro x _ hmem; exact absurd hmem (List.not_mem_nil x)) hnd
  exact ⟨fun os1 os2 hnd => main _ _ List.perm_append_comm hnd, main⟩

theorem apply_ops_commute_witness :
    ((([⟨⟨1, 1⟩, 0, (), 1⟩] ++ [⟨⟨2, 1⟩, 5, (), 2⟩] : List (OpMove Nat Unit Nat)).map
        (fun o => o.timestamp)).Nodup) ∧
    (State.new : State Nat Unit Nat).apply_ops
        ([⟨⟨1, 1⟩, 0, (), 1⟩] ++ [⟨⟨2, 1⟩, 5, (), 2⟩]) =
      (State.new : State Nat Unit Nat).apply_ops
        ([⟨⟨2, 1⟩, 5, (), 2⟩] ++ [⟨⟨1, 1⟩, 0, (), 1⟩]) :=
  ⟨by decide, apply_ops_commute.1 _ _ (by decide)⟩

theorem check_log_is_descending_spec_witness :
    (⟨[], Tree.new⟩ : State Nat Unit Nat).check_log_is_descending = none ∧
      ((⟨[⟨⟨0, 2⟩, 0, (), 1, none⟩, ⟨⟨0, 1⟩, 0, (), 2, none⟩], Tree.new⟩ :
          State Nat Unit Nat).check_log_is_descending = some () ↔
        ([⟨⟨0, 2⟩, 0, (), 1, none⟩, ⟨⟨0, 1⟩, 0, (), 2, none⟩] :
            List (LogOpMove Nat Unit Nat)).Chain'
          (fun a b => Clock.Lt b.timestamp a.timestamp)) :=
  ⟨check_log_is_descending_spec.1 _ rfl,
    check_log_is_descending_spec.2 _ (by simp) (by norm_num)⟩

end CrdtTree
